import Mathlib

/-!
# Verification of the two-tier dispatch engine (`hybrid_solver.py`)

A shallow embedding of the hybrid VRP dispatch engine: the cost model
(`calculate_route_cost`, `calculate_total_cost`), the greedy single-order
inserter (`greedy_insert`), the tabu-search refiner (`tabu_search`), the
Layer-1 orchestrator (`assign_new_order_realtime`) and the Layer-2 batch
reoptimizer post-processing (`batch_optimization_vrp`).

Python dictionaries (vehicle id → route) are embedded as ordered
association lists `List (Nat × List Nat)`; Python dict semantics
(insertion order preserved, update in place, new key appended at the end)
are mirrored by `dictGet`/`dictSet`.  Costs are exact rationals.
-/

namespace HybridSolver

/-- A route: the ordered stop indices of one vehicle (depot not stored). -/
abbrev Route := List Nat

/-- Fleet state: ordered association list from vehicle id to route,
mirroring the Python dict `current_routes`. -/
abbrev FleetState := List (Nat × Route)

/-- Travel-time matrix, embedded as a total function on indices. -/
abbrev TimeMatrix := Nat → Nat → ℚ

/-- Sum of the consecutive-hop costs `Σ matrix[route[i]][route[i+1]]`
(the `for i in range(len(route) - 1)` loop of `calculate_route_cost`). -/
def hopsCost (route : Route) (time_matrix : TimeMatrix) : ℚ :=
  match route with
  | a :: b :: rest => time_matrix a b + hopsCost (b :: rest) time_matrix
  | _ => 0

/-- `calculate_route_cost(route, time_matrix, depot_index=0)`:
`0` for an empty route, otherwise depot→first + consecutive hops +
last→depot. -/
def calculate_route_cost (route : Route) (time_matrix : TimeMatrix)
    (depot_index : Nat := 0) : ℚ :=
  match route with
  | [] => 0
  | s :: rest =>
    time_matrix depot_index s + hopsCost (s :: rest) time_matrix +
      time_matrix ((s :: rest).getLast (by simp)) depot_index

/-- `calculate_total_cost(routes_dict, time_matrix)`: sum of route costs
over all vehicles, in iteration order. -/
def calculate_total_cost (routes_dict : FleetState) (time_matrix : TimeMatrix) : ℚ :=
  routes_dict.foldl (fun acc p => acc + calculate_route_cost p.2 time_matrix) 0

/-- `current_routes.get(v_id, [])`: first binding of the key, default `[]`. -/
def dictGet (d : FleetState) (k : Nat) : Route :=
  match d with
  | [] => []
  | p :: rest => if p.1 = k then p.2 else dictGet rest k

/-- Python dict assignment `d[k] = v`: replaces the first binding of `k`
in place, or appends a fresh binding at the end when `k` is absent. -/
def dictSet (d : FleetState) (k : Nat) (v : Route) : FleetState :=
  match d with
  | [] => [(k, v)]
  | p :: rest => if p.1 = k then (k, v) :: rest else p :: dictSet rest k v

/-- Python `list.insert(i, x)`: insert before position `i`
(append when `i ≥ length`). -/
def pyInsert (i : Nat) (x : Nat) (l : Route) : Route :=
  match i, l with
  | 0, l => x :: l
  | _ + 1, [] => [x]
  | n + 1, a :: l => a :: pyInsert n x l

/-- All stops currently assigned across the fleet, in iteration order
(the pool collected by `batch_optimization_vrp`, also the flattening used
to state the one-assignment invariant). -/
def stops (d : FleetState) : List Nat :=
  d.flatMap (·.2)

/-! ## Layer 1: greedy insertion (`greedy_insert`) -/

/-- The candidate list scanned by the nested loops of `greedy_insert`:
for each `v_id in range(num_vehicles)` whose route is below `max_stops`,
for each position `i in range(len(route) + 1)`, the resulting route's cost
is computed and the candidate is kept unless it exceeds `max_duration`.
Each surviving candidate is `(cost_increase, v_id, i)`, in scan order. -/
def insertionCandidates (current_routes : FleetState) (new_order_index : Nat)
    (time_matrix : TimeMatrix) (num_vehicles max_stops : Nat)
    (max_duration : ℚ) : List (ℚ × Nat × Nat) :=
  (List.range num_vehicles).flatMap fun v_id =>
    let route := dictGet current_routes v_id
    if max_stops ≤ route.length then []
    else
      let original_cost := calculate_route_cost route time_matrix
      (List.range (route.length + 1)).filterMap fun i =>
        let temp_route := pyInsert i new_order_index route
        let new_cost := calculate_route_cost temp_route time_matrix
        if max_duration < new_cost then none
        else some (new_cost - original_cost, v_id, i)

/-- The running-minimum bookkeeping shared by `greedy_insert`
(`best_cost_increase`/`best_vehicle_id`/`best_insertion_index`) and the
best-neighbor scan of `tabu_search`, with the `float('inf')`/`-1`
sentinels embedded as `none`: strict `<` update on the first component,
so the first candidate attaining the minimum wins. -/
def pickBest {α : Type} (cands : List (ℚ × α)) : Option (ℚ × α) :=
  cands.foldl
    (fun best c =>
      match best with
      | none => some c
      | some b => if c.1 < b.1 then some c else some b)
    none

/-- `greedy_insert(current_routes, new_order_index, time_matrix,
num_vehicles, max_stops, max_duration)`: returns the fleet state with the
new stop inserted at the cheapest feasible vehicle/position, or `none`
(Python `None`) when no feasible candidate exists. -/
def greedy_insert (current_routes : FleetState) (new_order_index : Nat)
    (time_matrix : TimeMatrix) (num_vehicles max_stops : Nat)
    (max_duration : ℚ) : Option FleetState :=
  match pickBest (insertionCandidates current_routes new_order_index time_matrix
      num_vehicles max_stops max_duration) with
  | none => none
  | some (_, v, i) =>
    some (dictSet current_routes v (pyInsert i new_order_index (dictGet current_routes v)))

/-! ## Layer 1: tabu-search refinement (`tabu_search`) -/

/-- `neighbor_route`: the route with positions `i` and `j` exchanged
(`neighbor_route[i], neighbor_route[j] = neighbor_route[j], neighbor_route[i]`
on a copy). -/
def swapAt (route : Route) (i j : Nat) : Route :=
  (route.set i (route.getD j 0)).set j (route.getD i 0)

/-- The inner double loop of the neighborhood construction for one vehicle:
all `i < j` position swaps of its route (only when the route has more than
one stop), skipping swaps whose stop pair is in the tabu list in either
order, and keeping only swapped routes whose cost stays within
`max_duration`. -/
def routeNeighbors (vehicle_id : Nat) (route : Route) (time_matrix : TimeMatrix)
    (max_duration : ℚ) (tabu_list : List (Nat × Nat)) : List (Nat × Route) :=
  if 1 < route.length then
    (List.range route.length).flatMap fun i =>
      (List.range' (i + 1) (route.length - (i + 1))).filterMap fun j =>
        if (route.getD i 0, route.getD j 0) ∈ tabu_list ∨
            (route.getD j 0, route.getD i 0) ∈ tabu_list then none
        else
          let neighbor_route := swapAt route i j
          if calculate_route_cost neighbor_route time_matrix ≤ max_duration then
            some (vehicle_id, neighbor_route)
          else none
  else []

/-- The full neighborhood of one iteration: vehicles in iteration order. -/
def neighborhoodOf (current_solution : FleetState) (time_matrix : TimeMatrix)
    (max_duration : ℚ) (tabu_list : List (Nat × Nat)) : List (Nat × Route) :=
  current_solution.flatMap fun p =>
    routeNeighbors p.1 p.2 time_matrix max_duration tabu_list

/-- The best-neighbor scan: computes, for each neighbor in order,
`cost_change = new_cost − original_cost` and keeps the running minimum
with strict `<` update (first minimum wins), `none` embedding the
`best_neighbor_vehicle == -1` sentinel. -/
def pickBestNeighbor (current_solution : FleetState) (time_matrix : TimeMatrix)
    (neighborhood : List (Nat × Route)) : Option (Nat × Route) :=
  (pickBest (neighborhood.map fun p =>
    (calculate_route_cost p.2 time_matrix -
      calculate_route_cost (dictGet current_solution p.1) time_matrix, p))).map (·.2)

/-- The loop state of `tabu_search`: current solution, best solution and
its cost, and the tabu deque. -/
structure TabuState where
  current : FleetState
  best : FleetState
  best_cost : ℚ
  tabu : List (Nat × Nat)

/-- One iteration of the `for _ in range(iterations)` loop of
`tabu_search`; `none` means the loop `break`s (empty neighborhood). -/
def tabuStep (time_matrix : TimeMatrix) (max_duration : ℚ) (tabu_tenure : Nat)
    (s : TabuState) : Option TabuState :=
  let neighborhood := neighborhoodOf s.current time_matrix max_duration s.tabu
  if neighborhood.isEmpty then none
  else
    match pickBestNeighbor s.current time_matrix neighborhood with
    | none => some s
    | some (v, neighbor_route) =>
      let old_route := dictGet s.current v
      let swapped_nodes := old_route.filter (fun node => ¬ neighbor_route.contains node)
      let tabu' :=
        match swapped_nodes with
        | [a, b] =>
          let t := s.tabu ++ [(a, b)]
          if tabu_tenure < t.length then t.tail else t
        | _ => s.tabu
      let current' := dictSet s.current v neighbor_route
      let current_cost := calculate_total_cost current' time_matrix
      if current_cost < s.best_cost then
        some ⟨current', current', current_cost, tabu'⟩
      else
        some ⟨current', s.best, s.best_cost, tabu'⟩

/-- The iteration loop of `tabu_search`, stopping early on `break`. -/
def tabuLoop (time_matrix : TimeMatrix) (max_duration : ℚ) (tabu_tenure : Nat) :
    Nat → TabuState → TabuState
  | 0, s => s
  | n + 1, s =>
    match tabuStep time_matrix max_duration tabu_tenure s with
    | none => s
    | some s' => tabuLoop time_matrix max_duration tabu_tenure n s'

/-- `tabu_search(initial_solution, time_matrix, max_stops, max_duration,
iterations=50, tabu_tenure=10)`.  `max_stops` is accepted but unused, as in
the source.  An empty (falsy) initial solution yields `none`. -/
def tabu_search (initial_solution : FleetState) (time_matrix : TimeMatrix)
    (max_stops : Nat) (max_duration : ℚ)
    (iterations : Nat := 50) (tabu_tenure : Nat := 10) : Option FleetState :=
  if initial_solution.isEmpty then none
  else
    some (tabuLoop time_matrix max_duration tabu_tenure iterations
      ⟨initial_solution, initial_solution,
        calculate_total_cost initial_solution time_matrix, []⟩).best

/-! ## Layer 1 orchestration (`assign_new_order_realtime`) -/

/-- `assign_new_order_realtime(new_order_index, current_routes, time_matrix,
num_vehicles, max_stops, max_duration)`: greedy insertion, tabu refinement,
and the 97% acceptance test `tabu_total_cost < greedy_total_cost * 0.97`.
Returns the committed state (or `none` on rejection) with the method tag. -/
def assign_new_order_realtime (new_order_index : Nat) (current_routes : FleetState)
    (time_matrix : TimeMatrix) (num_vehicles max_stops : Nat)
    (max_duration : ℚ) : Option FleetState × String :=
  match greedy_insert current_routes new_order_index time_matrix
      num_vehicles max_stops max_duration with
  | none => (none, "greedy")
  | some greedy_solution =>
    let greedy_total_cost := calculate_total_cost greedy_solution time_matrix
    match tabu_search greedy_solution time_matrix max_stops max_duration with
    | some tabu_solution =>
      let tabu_total_cost := calculate_total_cost tabu_solution time_matrix
      if tabu_total_cost < greedy_total_cost * (97 / 100) then
        (some tabu_solution, "tabu")
      else
        (some greedy_solution, "greedy")
    | none => (some greedy_solution, "greedy")

/-! ## Layer 2: batch reoptimization (`batch_optimization_vrp`)

The OR-Tools solve itself is external to the repository; it is abstracted
as an oracle argument `solver_routes : Option (List Route)`, the
per-vehicle routes (original node indices, depot excluded) that the
extraction loop reads out of a solver solution for vehicles `0..V-1`, or
`none` when the solver returns no solution.  Everything around the oracle —
the empty-pool early return, the empty-route filter and the 95%
significance test — follows the source. -/

/-- `batch_optimization_vrp(current_routes, time_matrix, num_vehicles, ...)`
with the external solver abstracted as `solver_routes`. -/
def batch_optimization_vrp (current_routes : FleetState) (time_matrix : TimeMatrix)
    (num_vehicles : Nat) (solver_routes : Option (List Route)) : FleetState :=
  let all_orders := stops current_routes
  if all_orders.isEmpty then current_routes
  else
    match solver_routes with
    | some raw =>
      let extracted : FleetState := (List.range num_vehicles).map fun i => (i, raw.getD i [])
      let new_routes := extracted.filter fun p => ¬ p.2.isEmpty
      let new_cost := calculate_total_cost new_routes time_matrix
      let old_cost := calculate_total_cost current_routes time_matrix
      if new_cost < old_cost * (95 / 100) then new_routes else current_routes
    | none => current_routes

/-! ## Concrete instances used in witnesses and counterexamples -/

/-- A uniform matrix: cost 10 between any two distinct indices. -/
def wMatrix : TimeMatrix := fun i j => if i = j then 0 else 10

/-- The matrix of the 97%-threshold boundary scenario: with fleet
`[(0, [1, 2])]` and new stop `3`, greedy insertion yields route
`[1, 2, 3]` at fleet cost 200, and the best intra-route permutation
`[2, 1, 3]` costs exactly 194 = 0.97 × 200. -/
def thresholdMatrix : TimeMatrix := fun i j =>
  match i, j with
  | 0, 1 => 20 | 0, 2 => 20 | 0, 3 => 20
  | 1, 0 => 20 | 2, 0 => 20 | 3, 0 => 20
  | 1, 2 => 81 | 2, 3 => 79 | 3, 1 => 99
  | 1, 3 => 74 | 2, 1 => 80 | 3, 2 => 96
  | _, _ => 0

/-- The single-vehicle fleet of the threshold scenario. -/
def thresholdFleet : FleetState := [(0, [1, 2])]

/-- A matrix with a negative entry (`matrix[0][1] = -3`). -/
def negEntryMatrix : TimeMatrix := fun i j =>
  match i, j with
  | 0, 1 => -3
  | 1, 0 => 1
  | _, _ => 0

/-- Matrix for the batch-reoptimization scenario: serving stops 1 and 2
in one route (`0→1→2→0`, cost 3) is far cheaper than the two
single-stop routes (cost 22). -/
def batchMatrix : TimeMatrix := fun i j =>
  match i, j with
  | 0, 1 => 1 | 1, 0 => 10 | 0, 2 => 10 | 2, 0 => 1 | 1, 2 => 1
  | _, _ => 0

/-- The two-vehicle fleet of the batch scenario: domain is `{0, 1}`. -/
def batchFleet : FleetState := [(0, [1]), (1, [2])]

variable {α : Type}

/-- The strict-`<` running minimum seeded with `c`, the left fold
underlying `pickBest` once the accumulator is non-`none`. -/
def pickBest1 (c : ℚ × α) (cands : List (ℚ × α)) : ℚ × α :=
  cands.foldl (fun b x => if x.1 < b.1 then x else b) c

/-! ## Object-store embedding of Layer 1 (for the frame property)

Python lists and dicts are heap objects mutated in place; the pure
embedding above cannot distinguish returning fresh copies from mutating
the caller's objects.  To settle the frame claim, the Layer-1 functions
are re-embedded in store-passing style: every Python list/dict literal or
`[:]` copy allocates a cell, every in-place `insert`, element assignment
or dict-key assignment writes a cell, and all reads go through the store.
The fleet state passed in is a dict address; "no mutation" becomes: every
address allocated before the call still holds the same object after it. -/

/-- A Python heap object: a stop list, or a dict mapping vehicle ids to
route-object addresses. -/
inductive Obj where
  | route (r : Route)
  | dict (d : List (Nat × Nat))

/-- The object store; an address is an index into it. -/
abbrev Store := List Obj

/-- Allocate a fresh object; its address is the previous store length. -/
def alloc (st : Store) (o : Obj) : Store × Nat := (st ++ [o], st.length)

/-- Overwrite the object at an (existing) address. -/
def write (st : Store) (a : Nat) (o : Obj) : Store := st.set a o

/-- Read a route object (defensively `[]` on a non-route address). -/
def readRoute (st : Store) (a : Nat) : Route :=
  match st[a]? with
  | some (Obj.route r) => r
  | _ => []

/-- Read a dict object (defensively `[]` on a non-dict address). -/
def readDict (st : Store) (a : Nat) : List (Nat × Nat) :=
  match st[a]? with
  | some (Obj.dict d) => d
  | _ => []

/-- First-binding lookup in a dict value (Python `d.get(k)` / `d[k]`). -/
def alookup (d : List (Nat × Nat)) (k : Nat) : Option Nat :=
  match d with
  | [] => none
  | p :: rest => if p.1 = k then some p.2 else alookup rest k

/-- Python dict assignment on the value level: replace the first binding
of `k`, or append a new binding at the end. -/
def aset (d : List (Nat × Nat)) (k v : Nat) : List (Nat × Nat) :=
  match d with
  | [] => [(k, v)]
  | p :: rest => if p.1 = k then (k, v) :: rest else p :: aset rest k v

/-- `current_routes.get(v_id, [])`: the bound route object's value, or a
fresh empty list. -/
def readDictRoute (st : Store) (d v : Nat) : Route :=
  match alookup (readDict st d) v with
  | some a => readRoute st a
  | none => []

/-- `calculate_total_cost` over a fleet dict in the store. -/
def fleetCostHeap (st : Store) (d : Nat) (m : TimeMatrix) : ℚ :=
  (readDict st d).foldl
    (fun acc p => acc + calculate_route_cost (readRoute st p.2) m) 0

/-- The dict comprehension `{vid: r[:] for vid, r in X.items()}` on a
pre-read entry list: allocate a copy of each bound route in order. -/
def copyRoutesDict (st : Store) : List (Nat × Nat) → Store × List (Nat × Nat)
  | [] => (st, [])
  | (k, a) :: rest =>
    let p := alloc st (Obj.route (readRoute st a))
    let q := copyRoutesDict p.1 rest
    (q.1, (k, p.2) :: q.2)

/-- Copy a whole fleet dict: fresh route copies plus a fresh dict cell. -/
def copyDictHeap (st : Store) (src : Nat) : Store × Nat :=
  let p := copyRoutesDict st (readDict st src)
  alloc p.1 (Obj.dict p.2)

/-- The running-minimum update of the greedy scan
(`if cost_increase < best_cost_increase`). -/
def updBest (best : Option (ℚ × Nat × Nat)) (c : ℚ × Nat × Nat) :
    Option (ℚ × Nat × Nat) :=
  match best with
  | none => some c
  | some b => if c.1 < b.1 then some c else some b

/-- The inner position loop of `greedy_insert` in store-passing style:
`temp_route = route[:]` allocates, `temp_route.insert(i, ...)` writes the
fresh cell, and the candidate survives unless its cost exceeds the cap. -/
def scanPos (routeVal : Route) (original_cost : ℚ) (new : Nat) (m : TimeMatrix)
    (md : ℚ) (v : Nat) :
    Store → Option (ℚ × Nat × Nat) → List Nat → Store × Option (ℚ × Nat × Nat)
  | st, best, [] => (st, best)
  | st, best, i :: rest =>
    let p := alloc st (Obj.route routeVal)
    let st2 := write p.1 p.2 (Obj.route (pyInsert i new (readRoute p.1 p.2)))
    let new_cost := calculate_route_cost (readRoute st2 p.2) m
    if md < new_cost then
      scanPos routeVal original_cost new m md v st2 best rest
    else
      scanPos routeVal original_cost new m md v st2
        (updBest best (new_cost - original_cost, v, i)) rest

/-- The outer vehicle loop of `greedy_insert` in store-passing style. -/
def scanVehicles (cur new : Nat) (m : TimeMatrix) (ms : Nat) (md : ℚ) :
    Store → Option (ℚ × Nat × Nat) → List Nat → Store × Option (ℚ × Nat × Nat)
  | st, best, [] => (st, best)
  | st, best, v :: rest =>
    let routeVal := readDictRoute st cur v
    if ms ≤ routeVal.length then
      scanVehicles cur new m ms md st best rest
    else
      let original_cost := calculate_route_cost routeVal m
      let p := scanPos routeVal original_cost new m md v st best
        (List.range (routeVal.length + 1))
      scanVehicles cur new m ms md p.1 p.2 rest

/-- `greedy_insert` in store-passing style: scan, then build `new_routes`
as a dict of route copies, add `[]` for an absent chosen key, and insert
the new stop in place; the result is the new dict's address. -/
def greedy_insert_heap (st : Store) (cur new : Nat) (m : TimeMatrix)
    (V ms : Nat) (md : ℚ) : Store × Option Nat :=
  let s := scanVehicles cur new m ms md st none (List.range V)
  match s.2 with
  | none => (s.1, none)
  | some (_, v, i) =>
    let c := copyRoutesDict s.1 (readDict s.1 cur)
    let d := alloc c.1 (Obj.dict c.2)
    let st4 :=
      if (alookup (readDict d.1 d.2) v).isSome then d.1
      else
        let e := alloc d.1 (Obj.route [])
        write e.1 d.2 (Obj.dict (aset (readDict e.1 d.2) v e.2))
    let raddr := (alookup (readDict st4 d.2) v).getD 0
    let st5 := write st4 raddr (Obj.route (pyInsert i new (readRoute st4 raddr)))
    (st5, some d.2)

/-- The neighborhood double loop of one tabu iteration for one vehicle's
route, store-passing: each neighbor is a fresh copy (`route[:]`) whose two
positions are then swapped in place. -/
def routeNeighborsHeap (v : Nat) (routeVal : Route) (m : TimeMatrix) (md : ℚ)
    (tabu_list : List (Nat × Nat)) :
    Store → List (Nat × Nat) → Store × List (Nat × Nat)
  | st, [] => (st, [])
  | st, (i, j) :: rest =>
    if (routeVal.getD i 0, routeVal.getD j 0) ∈ tabu_list ∨
        (routeVal.getD j 0, routeVal.getD i 0) ∈ tabu_list then
      routeNeighborsHeap v routeVal m md tabu_list st rest
    else
      let p := alloc st (Obj.route routeVal)
      let st2 := write p.1 p.2 (Obj.route (swapAt (readRoute p.1 p.2) i j))
      let q := routeNeighborsHeap v routeVal m md tabu_list st2 rest
      if calculate_route_cost (readRoute st2 p.2) m ≤ md then
        (q.1, (v, p.2) :: q.2)
      else
        (q.1, q.2)

/-- The `i < j` index pairs scanned by the neighborhood loops. -/
def swapPairs (n : Nat) : List (Nat × Nat) :=
  (List.range n).flatMap fun i =>
    (List.range' (i + 1) (n - (i + 1))).map fun j => (i, j)

/-- The full neighborhood of one tabu iteration, store-passing. -/
def neighborhoodHeap (m : TimeMatrix) (md : ℚ) (tabu_list : List (Nat × Nat)) :
    Store → Nat → List (Nat × Nat) → Store × List (Nat × Nat)
  | st, _, [] => (st, [])
  | st, curD, (v, a) :: rest =>
    let routeVal := readRoute st a
    let p :=
      if 1 < routeVal.length then
        routeNeighborsHeap v routeVal m md tabu_list st (swapPairs routeVal.length)
      else (st, [])
    let q := neighborhoodHeap m md tabu_list p.1 curD rest
    (q.1, p.2 ++ q.2)

/-- The best-neighbor scan over neighbor addresses (pure reads). -/
def pickBestNeighborHeap (st : Store) (curD : Nat) (m : TimeMatrix)
    (nb : List (Nat × Nat)) : Option (Nat × Nat) :=
  (pickBest (nb.map fun p =>
    (calculate_route_cost (readRoute st p.2) m -
      calculate_route_cost (readDictRoute st curD p.1) m, p))).map (·.2)

/-- One-plus iterations of the tabu loop in store-passing style: the only
write to a pre-existing-within-the-call object is the dict assignment
`current_solution[v] = neighbor_route` on the dict allocated at entry. -/
def tabuIterHeap (m : TimeMatrix) (md : ℚ) (tn : Nat) :
    Nat → Store → Nat → Nat → ℚ → List (Nat × Nat) → Store × Nat
  | 0, st, _, bestD, _, _ => (st, bestD)
  | fuel + 1, st, curD, bestD, best_cost, tabu_list =>
    let p := neighborhoodHeap m md tabu_list st curD (readDict st curD)
    if p.2.isEmpty then (p.1, bestD)
    else
      match pickBestNeighborHeap p.1 curD m p.2 with
      | none => tabuIterHeap m md tn fuel p.1 curD bestD best_cost tabu_list
      | some (v, na) =>
        let old_route := readDictRoute p.1 curD v
        let swapped_nodes :=
          old_route.filter fun node => ¬ (readRoute p.1 na).contains node
        let tabu' :=
          match swapped_nodes with
          | [a, b] =>
            let t := tabu_list ++ [(a, b)]
            if tn < t.length then t.tail else t
          | _ => tabu_list
        let st2 := write p.1 curD (Obj.dict (aset (readDict p.1 curD) v na))
        let current_cost := fleetCostHeap st2 curD m
        if current_cost < best_cost then
          let c := copyDictHeap st2 curD
          tabuIterHeap m md tn fuel c.1 curD c.2 current_cost tabu'
        else
          tabuIterHeap m md tn fuel st2 curD bestD best_cost tabu'

/-- `tabu_search` in store-passing style: copies of the initial solution
for `best_solution` and `current_solution`, then the iteration loop. -/
def tabu_search_heap (st : Store) (init : Nat) (m : TimeMatrix) (ms : Nat)
    (md : ℚ) (iterations : Nat := 50) (tabu_tenure : Nat := 10) :
    Store × Option Nat :=
  if (readDict st init).isEmpty then (st, none)
  else
    let b := copyDictHeap st init
    let best_cost := fleetCostHeap b.1 b.2 m
    let c := copyDictHeap b.1 init
    let r := tabuIterHeap m md tabu_tenure iterations c.1 c.2 b.2 best_cost []
    (r.1, some r.2)

/-- `assign_new_order_realtime` in store-passing style. -/
def assign_new_order_realtime_heap (new : Nat) (st : Store) (cur : Nat)
    (m : TimeMatrix) (V ms : Nat) (md : ℚ) : Store × (Option Nat × String) :=
  let g := greedy_insert_heap st cur new m V ms md
  match g.2 with
  | none => (g.1, (none, "greedy"))
  | some gAddr =>
    let greedy_total_cost := fleetCostHeap g.1 gAddr m
    let t := tabu_search_heap g.1 gAddr m ms md
    match t.2 with
    | some tAddr =>
      let tabu_total_cost := fleetCostHeap t.1 tAddr m
      if tabu_total_cost < greedy_total_cost * (97 / 100) then
        (t.1, (some tAddr, "tabu"))
      else
        (t.1, (some gAddr, "greedy"))
    | none => (t.1, (some gAddr, "greedy"))

/-- The observable fleet value behind a dict address. -/
def readFleet (st : Store) (d : Nat) : FleetState :=
  (readDict st d).map fun p => (p.1, readRoute st p.2)

/-- `Extends st₀ st₁`: every object allocated in `st₀` is unchanged in
`st₁` (new allocations beyond `st₀.length` are unconstrained). -/
def Extends (st₀ st₁ : Store) : Prop :=
  st₀.length ≤ st₁.length ∧ ∀ a, a < st₀.length → st₁[a]? = st₀[a]?

/-- The concrete store of the frame-property witness: one fleet dict at
address 0 binding vehicle 0 to the route object `[1]` at address 1. -/
def wStore : Store := [Obj.dict [(0, 1)], Obj.route [1]]

/-! ## Basic lemmas about the embedded dictionary and list operations -/

theorem pyInsert_perm (i x : Nat) (l : Route) : (pyInsert i x l).Perm (x :: l) := by
  induction l generalizing i with
  | nil => cases i <;> simp [pyInsert]
  | cons a t ih =>
    cases i with
    | zero => simp [pyInsert]
    | succ n => exact ((ih n).cons a).trans (List.Perm.swap x a t)

theorem pyInsert_length (i x : Nat) (l : Route) :
    (pyInsert i x l).length = l.length + 1 := by
  induction l generalizing i with
  | nil => cases i <;> simp [pyInsert]
  | cons a t ih =>
    cases i with
    | zero => simp [pyInsert]
    | succ n => simp [pyInsert, ih n]

theorem dictGet_dictSet (d : FleetState) (k : Nat) (v : Route) :
    dictGet (dictSet d k v) k = v := by
  induction d with
  | nil => simp [dictGet, dictSet]
  | cons p rest ih =>
    by_cases h : p.1 = k
    · simp [dictGet, dictSet, h]
    · simp [dictGet, dictSet, h, ih]

theorem dictGet_eq_of_mem {d : FleetState} {k : Nat} {r : Route}
    (hmem : (k, r) ∈ d) (hnd : (d.map Prod.fst).Nodup) : dictGet d k = r := by
  induction d with
  | nil => simp at hmem
  | cons p rest ih =>
    simp only [List.map_cons, List.nodup_cons, List.mem_map] at hnd
    rcases List.mem_cons.mp hmem with h | h
    · simp [dictGet, ← h]
    · have hne : p.1 ≠ k := by
        intro he
        exact hnd.1 ⟨(k, r), h, he.symm⟩
      simp [dictGet, hne, ih h hnd.2]

theorem mem_dictSet {d : FleetState} {k : Nat} {v : Route} {p : Nat × Route}
    (hp : p ∈ dictSet d k v) : p = (k, v) ∨ p ∈ d := by
  induction d with
  | nil => simpa [dictSet] using hp
  | cons q rest ih =>
    by_cases h : q.1 = k
    · simp only [dictSet, h, if_pos rfl] at hp
      rcases List.mem_cons.mp hp with h' | h'
      · exact Or.inl h'
      · exact Or.inr (List.mem_cons_of_mem q h')
    · simp only [dictSet, if_neg h] at hp
      rcases List.mem_cons.mp hp with h' | h'
      · exact Or.inr (h' ▸ List.mem_cons_self q rest)
      · rcases ih h' with h'' | h''
        · exact Or.inl h''
        · exact Or.inr (List.mem_cons_of_mem q h'')

theorem map_fst_dictSet_mem {d : FleetState} {k : Nat} (v : Route)
    (hk : k ∈ d.map Prod.fst) : (dictSet d k v).map Prod.fst = d.map Prod.fst := by
  induction d with
  | nil => simp at hk
  | cons p rest ih =>
    by_cases h : p.1 = k
    · simp [dictSet, h]
    · have hk' : k ∈ rest.map Prod.fst := by
        rcases List.mem_cons.mp hk with h' | h'
        · exact absurd h'.symm h
        · exact h'
      simp [dictSet, h, ih hk']

theorem map_fst_dictSet_not_mem {d : FleetState} {k : Nat} (v : Route)
    (hk : k ∉ d.map Prod.fst) :
    (dictSet d k v).map Prod.fst = d.map Prod.fst ++ [k] := by
  induction d with
  | nil => simp [dictSet]
  | cons p rest ih =>
    simp only [List.map_cons, List.mem_cons] at hk
    push_neg at hk
    have hne : p.1 ≠ k := fun h => hk.1 h.symm
    simp [dictSet, hne, ih hk.2]

theorem nodup_keys_dictSet {d : FleetState} (k : Nat) (v : Route)
    (hnd : (d.map Prod.fst).Nodup) : ((dictSet d k v).map Prod.fst).Nodup := by
  by_cases hk : k ∈ d.map Prod.fst
  · rw [map_fst_dictSet_mem v hk]; exact hnd
  · rw [map_fst_dictSet_not_mem v hk]
    simp only [List.nodup_append, List.nodup_singleton, List.disjoint_singleton]
    exact ⟨hnd, trivial, hk⟩

theorem stops_dictSet (d : FleetState) (k : Nat) (v : Route) :
    (stops (dictSet d k v) ++ dictGet d k).Perm (stops d ++ v) := by
  induction d with
  | nil => simp [stops, dictSet, dictGet]
  | cons p rest ih =>
    by_cases h : p.1 = k
    · simp only [stops, dictSet, dictGet, if_pos h, List.flatMap_cons]
      refine (List.perm_append_comm.trans
        (List.Perm.append_left p.2 List.perm_append_comm)).trans ?_
      rw [List.append_assoc]
    · simp only [stops, dictSet, dictGet, if_neg h, List.flatMap_cons]
      have ihm := ih
      simp only [stops] at ihm
      rw [List.append_assoc, List.append_assoc]
      exact ihm.append_left p.2

theorem getD_cons_set_perm (t : Route) (m a : Nat) (hm : m < t.length) :
    (t.getD m 0 :: t.set m a).Perm (a :: t) := by
  induction t generalizing m with
  | nil => simp at hm
  | cons b t' ih =>
    cases m with
    | zero => simpa using List.Perm.swap a b t'
    | succ n =>
      have hn : n < t'.length := by simpa using hm
      have step : (t'.getD n 0 :: b :: t'.set n a).Perm (b :: t'.getD n 0 :: t'.set n a) :=
        List.Perm.swap b (t'.getD n 0) (t'.set n a)
      have ihc : (b :: (t'.getD n 0 :: t'.set n a)).Perm (b :: a :: t') :=
        (ih n hn).cons b
      have fin : (b :: a :: t').Perm (a :: b :: t') := List.Perm.swap a b t'
      simpa using (step.trans ihc).trans fin

theorem swapAt_perm (l : Route) (i j : Nat) (hij : i < j) (hj : j < l.length) :
    (swapAt l i j).Perm l := by
  induction l generalizing i j with
  | nil => simp at hj
  | cons a t ih =>
    cases i with
    | zero =>
      obtain ⟨m, rfl⟩ : ∃ m, j = m + 1 := ⟨j - 1, by omega⟩
      have hm : m < t.length := by simpa using hj
      have : swapAt (a :: t) 0 (m + 1) = t.getD m 0 :: t.set m a := by
        simp [swapAt]
      rw [this]
      exact getD_cons_set_perm t m a hm
    | succ s =>
      obtain ⟨m, rfl⟩ : ∃ m, j = m + 1 := ⟨j - 1, by omega⟩
      have : swapAt (a :: t) (s + 1) (m + 1) = a :: swapAt t s m := by
        simp [swapAt]
      rw [this]
      exact (ih s m (by omega) (by simpa using hj)).cons a

/-! ## Lemmas about the running-minimum scans -/

theorem pickBest_nil : pickBest ([] : List (ℚ × α)) = none := rfl

theorem pickBest_cons (c : ℚ × α) (cands : List (ℚ × α)) :
    pickBest (c :: cands) = some (pickBest1 c cands) := by
  suffices h : ∀ (l : List (ℚ × α)) (b : ℚ × α),
      l.foldl (fun best c =>
        match best with
        | none => some c
        | some b => if c.1 < b.1 then some c else some b) (some b) =
      some (pickBest1 b l) by
    simpa [pickBest, pickBest1] using h cands c
  intro l
  induction l with
  | nil => intro b; rfl
  | cons x l ih =>
    intro b
    by_cases hx : x.1 < b.1
    · simpa [pickBest1, hx] using ih x
    · simpa [pickBest1, hx] using ih b

theorem pickBest_eq_none {cands : List (ℚ × α)} :
    pickBest cands = none ↔ cands = [] := by
  cases cands with
  | nil => simp [pickBest_nil]
  | cons c l => simp [pickBest_cons]

theorem pickBest1_le_seed (c : ℚ × α) (cands : List (ℚ × α)) :
    (pickBest1 c cands).1 ≤ c.1 := by
  induction cands generalizing c with
  | nil => exact le_refl _
  | cons x l ih =>
    by_cases hx : x.1 < c.1
    · have hb : pickBest1 c (x :: l) = pickBest1 x l := by simp [pickBest1, hx]
      rw [hb]
      exact le_of_lt (lt_of_le_of_lt (ih x) hx)
    · have hb : pickBest1 c (x :: l) = pickBest1 c l := by simp [pickBest1, hx]
      rw [hb]
      exact ih c

/-- The result of the running-minimum scan is the first element attaining
the minimum: everything before it is strictly larger, everything after it
is at least as large. -/
theorem pickBest1_split (c : ℚ × α) (cands : List (ℚ × α)) :
    ∃ pre post, c :: cands = pre ++ pickBest1 c cands :: post ∧
      (∀ x ∈ pre, (pickBest1 c cands).1 < x.1) ∧
      (∀ x ∈ post, (pickBest1 c cands).1 ≤ x.1) := by
  induction cands generalizing c with
  | nil => exact ⟨[], [], by simp [pickBest1]⟩
  | cons x l ih =>
    by_cases hx : x.1 < c.1
    · have hb : pickBest1 c (x :: l) = pickBest1 x l := by simp [pickBest1, hx]
      obtain ⟨pre, post, hsplit, hpre, hpost⟩ := ih x
      rw [hb]
      refine ⟨c :: pre, post, ?_, ?_, hpost⟩
      · rw [List.cons_append, ← hsplit]
      · intro y hy
        rcases List.mem_cons.mp hy with rfl | hy
        · exact lt_of_le_of_lt (pickBest1_le_seed x l) hx
        · exact hpre y hy
    · have hb : pickBest1 c (x :: l) = pickBest1 c l := by simp [pickBest1, hx]
      obtain ⟨pre, post, hsplit, hpre, hpost⟩ := ih c
      rw [hb]
      cases pre with
      | nil =>
        rw [List.nil_append] at hsplit
        have hc : pickBest1 c l = c := (List.cons.injEq _ _ _ _ ▸ hsplit).1.symm
        have hl : l = post := (List.cons.injEq _ _ _ _ ▸ hsplit).2
        refine ⟨[], x :: post, ?_, by simp, ?_⟩
        · rw [List.nil_append, hc, hl]
        · intro y hy
          rcases List.mem_cons.mp hy with rfl | hy
          · rw [hc]
            exact le_of_not_lt hx
          · exact hpost y hy
      | cons z pre' =>
        rw [List.cons_append] at hsplit
        have hc : c = z := (List.cons.injEq _ _ _ _ ▸ hsplit).1
        have hl : l = pre' ++ pickBest1 c l :: post :=
          (List.cons.injEq _ _ _ _ ▸ hsplit).2
        have hbc : (pickBest1 c l).1 < c.1 :=
          hc ▸ hpre z (List.mem_cons_self z pre')
        refine ⟨c :: x :: pre', post, ?_, ?_, hpost⟩
        · rw [List.cons_append, List.cons_append, ← hl]
        · intro y hy
          rcases List.mem_cons.mp hy with rfl | hy
          · exact hbc
          · rcases List.mem_cons.mp hy with rfl | hy
            · exact lt_of_lt_of_le hbc (le_of_not_lt hx)
            · exact hpre y (List.mem_cons_of_mem z hy)

theorem pickBest_split {cands : List (ℚ × α)} {b : ℚ × α}
    (hb : pickBest cands = some b) :
    ∃ pre post, cands = pre ++ b :: post ∧
      (∀ x ∈ pre, b.1 < x.1) ∧ (∀ x ∈ post, b.1 ≤ x.1) := by
  cases cands with
  | nil => simp [pickBest_nil] at hb
  | cons c l =>
    rw [pickBest_cons] at hb
    obtain rfl : pickBest1 c l = b := by injection hb
    exact pickBest1_split c l

theorem pickBest_mem {cands : List (ℚ × α)} {b : ℚ × α}
    (hb : pickBest cands = some b) : b ∈ cands := by
  obtain ⟨pre, post, hsplit, -, -⟩ := pickBest_split hb
  rw [hsplit]
  exact List.mem_append.mpr (Or.inr (List.mem_cons_self b post))

theorem pickBest_min {cands : List (ℚ × α)} {b : ℚ × α}
    (hb : pickBest cands = some b) : ∀ x ∈ cands, b.1 ≤ x.1 := by
  obtain ⟨pre, post, hsplit, hpre, hpost⟩ := pickBest_split hb
  intro x hx
  rw [hsplit] at hx
  rcases List.mem_append.mp hx with h | h
  · exact le_of_lt (hpre x h)
  · rcases List.mem_cons.mp h with rfl | h
    · exact le_refl _
    · exact hpost x h

/-! ## Characterization of the greedy insertion -/

/-- Membership in the candidate list is exactly the spec-side description:
a vehicle index below `num_vehicles` whose route is strictly below
`max_stops`, an insertion position `0..len(route)`, a resulting route cost
within `max_duration`, and the recorded value `newCost − oldCost`. -/
theorem mem_insertionCandidates {cr : FleetState} {new : Nat} {m : TimeMatrix}
    {V ms : Nat} {md : ℚ} {c : ℚ} {v i : Nat} :
    (c, v, i) ∈ insertionCandidates cr new m V ms md ↔
      v < V ∧ (dictGet cr v).length < ms ∧ i < (dictGet cr v).length + 1 ∧
      calculate_route_cost (pyInsert i new (dictGet cr v)) m ≤ md ∧
      c = calculate_route_cost (pyInsert i new (dictGet cr v)) m -
          calculate_route_cost (dictGet cr v) m := by
  simp only [insertionCandidates, List.mem_flatMap, List.mem_range]
  constructor
  · rintro ⟨v', hv', hmem⟩
    by_cases h : ms ≤ (dictGet cr v').length
    · simp [h] at hmem
    · simp only [if_neg (not_le.mpr (not_le.mp h)), List.mem_filterMap,
        List.mem_range] at hmem
      rcases hmem with ⟨i', hi', heq⟩
      by_cases h2 : md < calculate_route_cost (pyInsert i' new (dictGet cr v')) m
      · simp [h2] at heq
      · simp only [if_neg (not_lt.mpr (not_lt.mp h2)), Option.some.injEq,
          Prod.mk.injEq] at heq
        obtain ⟨hc, hv2, hi2⟩ := heq
        subst hv2; subst hi2
        exact ⟨hv', not_le.mp h, hi', not_lt.mp h2, hc.symm⟩
  · rintro ⟨hv, hms, hi, hcost, rfl⟩
    refine ⟨v, hv, ?_⟩
    rw [if_neg (not_le.mpr hms)]
    simp only [List.mem_filterMap, List.mem_range]
    exact ⟨i, hi, by rw [if_neg (not_lt.mpr hcost)]⟩

/-- The candidate list is scanned in strictly increasing
vehicle-index-then-position-index (lexicographic) order. -/
theorem insertionCandidates_pairwise (cr : FleetState) (new : Nat) (m : TimeMatrix)
    (V ms : Nat) (md : ℚ) :
    (insertionCandidates cr new m V ms md).Pairwise
      (fun x y => x.2.1 < y.2.1 ∨ (x.2.1 = y.2.1 ∧ x.2.2 < y.2.2)) := by
  unfold insertionCandidates
  rw [List.pairwise_flatMap]
  constructor
  · intro v hv
    by_cases h : ms ≤ (dictGet cr v).length
    · simp [h]
    · rw [if_neg h, List.pairwise_filterMap]
      refine List.Pairwise.imp ?_ (List.pairwise_lt_range _)
      intro i j hij b hb b' hb'
      by_cases hci : md < calculate_route_cost (pyInsert i new (dictGet cr v)) m
      · simp [hci] at hb
      · by_cases hcj : md < calculate_route_cost (pyInsert j new (dictGet cr v)) m
        · simp [hcj] at hb'
        · simp only [if_neg (not_lt.mpr (not_lt.mp hci)), Option.mem_def,
            Option.some.injEq] at hb
          simp only [if_neg (not_lt.mpr (not_lt.mp hcj)), Option.mem_def,
            Option.some.injEq] at hb'
          subst hb; subst hb'
          exact Or.inr ⟨rfl, hij⟩
  · refine List.Pairwise.imp ?_ (List.pairwise_lt_range _)
    intro v w hvw x hx y hy
    have hxv : x.2.1 = v := by
      by_cases h : ms ≤ (dictGet cr v).length
      · simp [h] at hx
      · rw [if_neg h] at hx
        simp only [List.mem_filterMap, List.mem_range] at hx
        rcases hx with ⟨i, -, heq⟩
        by_cases h2 : md < calculate_route_cost (pyInsert i new (dictGet cr v)) m
        · simp [h2] at heq
        · simp only [if_neg (not_lt.mpr (not_lt.mp h2)), Option.some.injEq] at heq
          rw [← heq]
    have hyw : y.2.1 = w := by
      by_cases h : ms ≤ (dictGet cr w).length
      · simp [h] at hy
      · rw [if_neg h] at hy
        simp only [List.mem_filterMap, List.mem_range] at hy
        rcases hy with ⟨i, -, heq⟩
        by_cases h2 : md < calculate_route_cost (pyInsert i new (dictGet cr w)) m
        · simp [h2] at heq
        · simp only [if_neg (not_lt.mpr (not_lt.mp h2)), Option.some.injEq] at heq
          rw [← heq]
    exact Or.inl (hxv ▸ hyw ▸ hvw)

/-- Structural characterization of `greedy_insert`: it succeeds exactly
when the running-minimum scan finds a candidate, and then applies that
candidate's insertion to a copy of the fleet state. -/
theorem greedy_insert_eq_some_iff {cr : FleetState} {new : Nat} {m : TimeMatrix}
    {V ms : Nat} {md : ℚ} {nr : FleetState} :
    greedy_insert cr new m V ms md = some nr ↔
    ∃ c v i, pickBest (insertionCandidates cr new m V ms md) = some (c, v, i) ∧
      nr = dictSet cr v (pyInsert i new (dictGet cr v)) := by
  unfold greedy_insert
  cases h : pickBest (insertionCandidates cr new m V ms md) with
  | none => simp
  | some b =>
    obtain ⟨c, v, i⟩ := b
    simp only [Option.some.injEq]
    constructor
    · intro he
      exact ⟨c, v, i, rfl, he.symm⟩
    · rintro ⟨c', v', i', heq, rfl⟩
      simp only [Prod.mk.injEq] at heq
      rw [heq.2.1, heq.2.2]

theorem greedy_insert_eq_none_iff {cr : FleetState} {new : Nat} {m : TimeMatrix}
    {V ms : Nat} {md : ℚ} :
    greedy_insert cr new m V ms md = none ↔
    insertionCandidates cr new m V ms md = [] := by
  unfold greedy_insert
  cases h : pickBest (insertionCandidates cr new m V ms md) with
  | none => simpa using pickBest_eq_none.mp h
  | some b =>
    obtain ⟨c, v, i⟩ := b
    simp only [reduceCtorEq, false_iff]
    intro he
    rw [he, pickBest_nil] at h
    exact Option.noConfusion h

/-! ## Characterization of the tabu-search refinement -/

theorem stops_dictSet_multiset (d : FleetState) (k : Nat) (v : Route) :
    (stops (dictSet d k v) : Multiset Nat) + (dictGet d k : Multiset Nat) =
    (stops d : Multiset Nat) + (v : Multiset Nat) := by
  have h := Multiset.coe_eq_coe.mpr (stops_dictSet d k v)
  simpa using h

theorem mem_routeNeighbors {v w : Nat} {route nr : Route} {m : TimeMatrix}
    {md : ℚ} {tl : List (Nat × Nat)}
    (h : (w, nr) ∈ routeNeighbors v route m md tl) :
    w = v ∧ nr.Perm route ∧ calculate_route_cost nr m ≤ md := by
  by_cases hlen : 1 < route.length
  · simp only [routeNeighbors, if_pos hlen, List.mem_flatMap, List.mem_range,
      List.mem_filterMap] at h
    obtain ⟨i, hi, j, hj, heq⟩ := h
    have hj' : i + 1 ≤ j ∧ j < route.length := by
      have := List.mem_range'_1.mp hj
      omega
    split at heq
    · exact Option.noConfusion heq
    · split at heq
      · rename_i hcond
        injection heq with h2
        rw [Prod.mk.injEq] at h2
        exact ⟨h2.1.symm, h2.2 ▸ swapAt_perm route i j (by omega) hj'.2,
          h2.2 ▸ hcond⟩
      · exact Option.noConfusion heq
  · simp [routeNeighbors, if_neg hlen] at h

theorem mem_neighborhoodOf {cur : FleetState} {m : TimeMatrix} {md : ℚ}
    {tl : List (Nat × Nat)} {w : Nat} {nr : Route}
    (h : (w, nr) ∈ neighborhoodOf cur m md tl) :
    ∃ r, (w, r) ∈ cur ∧ nr.Perm r ∧ calculate_route_cost nr m ≤ md := by
  simp only [neighborhoodOf, List.mem_flatMap] at h
  obtain ⟨p, hp, hmem⟩ := h
  obtain ⟨rfl, hperm, hcost⟩ := mem_routeNeighbors hmem
  exact ⟨p.2, by simpa using hp, hperm, hcost⟩

theorem pickBestNeighbor_mem {cur : FleetState} {m : TimeMatrix}
    {nb : List (Nat × Route)} {p : Nat × Route}
    (h : pickBestNeighbor cur m nb = some p) : p ∈ nb := by
  simp only [pickBestNeighbor, Option.map_eq_some'] at h
  obtain ⟨b, hb, rfl⟩ := h
  have := pickBest_mem hb
  simp only [List.mem_map] at this
  obtain ⟨q, hq, heq⟩ := this
  rw [← heq]
  exact hq

/-- Case analysis of one tabu-search iteration that did not `break`:
either nothing changed (unreachable sentinel branch), or exactly one
vehicle's route was replaced by a feasible permutation of it, and the
best-solution bookkeeping followed the `current_cost < best_cost` test. -/
theorem tabuStep_eq {m : TimeMatrix} {md : ℚ} {tn : Nat} {s s' : TabuState}
    (h : tabuStep m md tn s = some s') :
    (s'.current = s.current ∧ s'.best = s.best ∧ s'.best_cost = s.best_cost) ∨
    ∃ v r nr, (v, r) ∈ s.current ∧ nr.Perm r ∧
      calculate_route_cost nr m ≤ md ∧
      s'.current = dictSet s.current v nr ∧
      ((calculate_total_cost s'.current m < s.best_cost ∧
        s'.best = s'.current ∧
        s'.best_cost = calculate_total_cost s'.current m) ∨
       (s.best_cost ≤ calculate_total_cost s'.current m ∧
        s'.best = s.best ∧ s'.best_cost = s.best_cost)) := by
  simp only [tabuStep] at h
  by_cases hempty : (neighborhoodOf s.current m md s.tabu).isEmpty
  · rw [if_pos hempty] at h
    exact Option.noConfusion h
  · rw [if_neg hempty] at h
    cases hpb : pickBestNeighbor s.current m (neighborhoodOf s.current m md s.tabu) with
    | none =>
      rw [hpb] at h
      have hs : s = s' := by injection h
      subst hs
      exact Or.inl ⟨rfl, rfl, rfl⟩
    | some p =>
      obtain ⟨v, nr⟩ := p
      rw [hpb] at h
      dsimp only at h
      have hmem : (v, nr) ∈ neighborhoodOf s.current m md s.tabu :=
        pickBestNeighbor_mem hpb
      obtain ⟨r, hr, hperm, hcost⟩ := mem_neighborhoodOf hmem
      refine Or.inr ⟨v, r, nr, hr, hperm, hcost, ?_⟩
      by_cases hc : calculate_total_cost (dictSet s.current v nr) m < s.best_cost
      · rw [if_pos hc] at h
        injection h with hX
        subst hX
        exact ⟨rfl, Or.inl ⟨hc, rfl, rfl⟩⟩
      · rw [if_neg hc] at h
        injection h with hX
        subst hX
        exact ⟨rfl, Or.inr ⟨le_of_not_lt hc, rfl, rfl⟩⟩

/-- Best-solution bookkeeping across the iteration loop: the recorded
`best_cost` is the cost of the recorded best state and never increases. -/
theorem tabuLoop_best (m : TimeMatrix) (md : ℚ) (tn : Nat) :
    ∀ (fuel : Nat) (s : TabuState),
      calculate_total_cost s.best m = s.best_cost →
      calculate_total_cost (tabuLoop m md tn fuel s).best m =
        (tabuLoop m md tn fuel s).best_cost ∧
      (tabuLoop m md tn fuel s).best_cost ≤ s.best_cost := by
  intro fuel
  induction fuel with
  | zero => intro s hb; exact ⟨hb, le_refl _⟩
  | succ n ih =>
    intro s hb
    rw [tabuLoop]
    cases hstep : tabuStep m md tn s with
    | none => exact ⟨hb, le_refl _⟩
    | some s' =>
      have hs' : calculate_total_cost s'.best m = s'.best_cost ∧
          s'.best_cost ≤ s.best_cost := by
        rcases tabuStep_eq hstep with ⟨-, hbeq, hceq⟩ |
          ⟨v, r, nr, -, -, -, -, hcase⟩
        · rw [hbeq, hceq]
          exact ⟨hb, le_refl _⟩
        · rcases hcase with ⟨hlt, hbeq, hceq⟩ | ⟨-, hbeq, hceq⟩
          · rw [hbeq, hceq]
            exact ⟨rfl, le_of_lt hlt⟩
          · rw [hbeq, hceq]
            exact ⟨hb, le_refl _⟩
      obtain ⟨h1, h2⟩ := ih s' hs'.1
      exact ⟨h1, le_trans h2 hs'.2⟩

/-- Feasibility is preserved across the iteration loop: if every route of
`current` and `best` respects the duration cap, the same holds after any
number of iterations. -/
theorem tabuLoop_duration (m : TimeMatrix) (md : ℚ) (tn : Nat) :
    ∀ (fuel : Nat) (s : TabuState),
      (∀ p ∈ s.current, calculate_route_cost p.2 m ≤ md) →
      (∀ p ∈ s.best, calculate_route_cost p.2 m ≤ md) →
      (∀ p ∈ (tabuLoop m md tn fuel s).current, calculate_route_cost p.2 m ≤ md) ∧
      (∀ p ∈ (tabuLoop m md tn fuel s).best, calculate_route_cost p.2 m ≤ md) := by
  intro fuel
  induction fuel with
  | zero => intro s hc hb; exact ⟨hc, hb⟩
  | succ n ih =>
    intro s hc hb
    rw [tabuLoop]
    cases hstep : tabuStep m md tn s with
    | none => exact ⟨hc, hb⟩
    | some s' =>
      have hc' : ∀ p ∈ s'.current, calculate_route_cost p.2 m ≤ md := by
        rcases tabuStep_eq hstep with ⟨hcur, -, -⟩ |
          ⟨v, r, nr, -, -, hcost, hcur, -⟩
        · rw [hcur]; exact hc
        · rw [hcur]
          intro p hp
          rcases mem_dictSet hp with rfl | hp
          · exact hcost
          · exact hc p hp
      have hb' : ∀ p ∈ s'.best, calculate_route_cost p.2 m ≤ md := by
        rcases tabuStep_eq hstep with ⟨-, hbeq, -⟩ |
          ⟨v, r, nr, -, -, -, -, hcase⟩
        · rw [hbeq]; exact hb
        · rcases hcase with ⟨-, hbeq, -⟩ | ⟨-, hbeq, -⟩
          · rw [hbeq]; exact hc'
          · rw [hbeq]; exact hb
      exact ih s' hc' hb'

/-- The multiset of assigned stops, and key uniqueness, are preserved
across the iteration loop: swaps permute a single route in place. -/
theorem tabuLoop_stops (m : TimeMatrix) (md : ℚ) (tn : Nat) :
    ∀ (fuel : Nat) (s : TabuState),
      (s.current.map Prod.fst).Nodup →
      (stops s.best : Multiset Nat) = (stops s.current : Multiset Nat) →
      ((tabuLoop m md tn fuel s).current.map Prod.fst).Nodup ∧
      (stops (tabuLoop m md tn fuel s).current : Multiset Nat) =
        (stops s.current : Multiset Nat) ∧
      (stops (tabuLoop m md tn fuel s).best : Multiset Nat) =
        (stops s.current : Multiset Nat) := by
  intro fuel
  induction fuel with
  | zero => intro s hnd hb; exact ⟨hnd, rfl, hb⟩
  | succ n ih =>
    intro s hnd hb
    rw [tabuLoop]
    cases hstep : tabuStep m md tn s with
    | none => exact ⟨hnd, rfl, hb⟩
    | some s' =>
      rcases tabuStep_eq hstep with ⟨hcur, hbeq, -⟩ |
        ⟨v, r, nr, hr, hperm, -, hcur, hcase⟩
      · have hnd' : (s'.current.map Prod.fst).Nodup := by rw [hcur]; exact hnd
        have hb' : (stops s'.best : Multiset Nat) = (stops s'.current : Multiset Nat) := by
          rw [hbeq, hcur]; exact hb
        obtain ⟨g1, g2, g3⟩ := ih s' hnd' hb'
        rw [hcur] at g2 g3
        exact ⟨g1, g2, g3⟩
      · have hget : dictGet s.current v = r := dictGet_eq_of_mem hr hnd
        have hnd' : (s'.current.map Prod.fst).Nodup := by
          rw [hcur]; exact nodup_keys_dictSet v nr hnd
        have hcurstops : (stops s'.current : Multiset Nat) =
            (stops s.current : Multiset Nat) := by
          have hds := stops_dictSet_multiset s.current v nr
          rw [hget] at hds
          have hnr : (nr : Multiset Nat) = (r : Multiset Nat) :=
            Multiset.coe_eq_coe.mpr hperm
          rw [hnr] at hds
          rw [hcur]
          exact add_right_cancel hds
        have hb' : (stops s'.best : Multiset Nat) =
            (stops s'.current : Multiset Nat) := by
          rcases hcase with ⟨-, hbeq, -⟩ | ⟨-, hbeq, -⟩
          · rw [hbeq]
          · rw [hbeq, hcurstops]; exact hb
        obtain ⟨g1, g2, g3⟩ := ih s' hnd' hb'
        rw [hcurstops] at g2 g3
        exact ⟨g1, g2, g3⟩

theorem tabu_search_cost_le {initial_solution : FleetState} {m : TimeMatrix}
    {ms : Nat} {md : ℚ} {out : FleetState}
    (h : tabu_search initial_solution m ms md = some out) :
    calculate_total_cost out m ≤ calculate_total_cost initial_solution m := by
  unfold tabu_search at h
  by_cases he : initial_solution.isEmpty
  · rw [if_pos he] at h
    exact Option.noConfusion h
  · rw [if_neg he] at h
    injection h with h
    obtain ⟨h1, h2⟩ := tabuLoop_best m md 10 50
      ⟨initial_solution, initial_solution,
        calculate_total_cost initial_solution m, []⟩ rfl
    rw [h] at h1
    rw [h1]
    exact h2

theorem tabu_search_duration {initial_solution : FleetState} {m : TimeMatrix}
    {ms : Nat} {md : ℚ} {out : FleetState}
    (hfeas : ∀ p ∈ initial_solution, calculate_route_cost p.2 m ≤ md)
    (h : tabu_search initial_solution m ms md = some out) :
    ∀ p ∈ out, calculate_route_cost p.2 m ≤ md := by
  unfold tabu_search at h
  by_cases he : initial_solution.isEmpty
  · rw [if_pos he] at h
    exact Option.noConfusion h
  · rw [if_neg he] at h
    injection h with h
    obtain ⟨-, h2⟩ := tabuLoop_duration m md 10 50
      ⟨initial_solution, initial_solution,
        calculate_total_cost initial_solution m, []⟩ hfeas hfeas
    rw [h] at h2
    exact h2

theorem tabu_search_stops {initial_solution : FleetState} {m : TimeMatrix}
    {ms : Nat} {md : ℚ} {out : FleetState}
    (hnd : (initial_solution.map Prod.fst).Nodup)
    (h : tabu_search initial_solution m ms md = some out) :
    (stops out : Multiset Nat) = (stops initial_solution : Multiset Nat) := by
  unfold tabu_search at h
  by_cases he : initial_solution.isEmpty
  · rw [if_pos he] at h
    exact Option.noConfusion h
  · rw [if_neg he] at h
    injection h with h
    obtain ⟨-, -, h3⟩ := tabuLoop_stops m md 10 50
      ⟨initial_solution, initial_solution,
        calculate_total_cost initial_solution m, []⟩ hnd rfl
    rw [h] at h3
    exact h3

/-! ## Stop-multiset accounting for the full Layer-1 pipeline -/

theorem greedy_insert_stops {cr : FleetState} {new : Nat} {m : TimeMatrix}
    {V ms : Nat} {md : ℚ} {g : FleetState}
    (h : greedy_insert cr new m V ms md = some g) :
    (stops g : Multiset Nat) = new ::ₘ (stops cr : Multiset Nat) := by
  obtain ⟨c, v, i, hpick, rfl⟩ := greedy_insert_eq_some_iff.mp h
  have hds := stops_dictSet_multiset cr v (pyInsert i new (dictGet cr v))
  have hpi : (pyInsert i new (dictGet cr v) : Multiset Nat) =
      new ::ₘ (dictGet cr v : Multiset Nat) := by
    have := Multiset.coe_eq_coe.mpr (pyInsert_perm i new (dictGet cr v))
    simpa using this
  rw [hpi, Multiset.add_cons, ← Multiset.cons_add] at hds
  exact add_right_cancel hds

theorem greedy_insert_keys {cr : FleetState} {new : Nat} {m : TimeMatrix}
    {V ms : Nat} {md : ℚ} {g : FleetState}
    (hnd : (cr.map Prod.fst).Nodup)
    (h : greedy_insert cr new m V ms md = some g) :
    (g.map Prod.fst).Nodup := by
  obtain ⟨c, v, i, hpick, rfl⟩ := greedy_insert_eq_some_iff.mp h
  exact nodup_keys_dictSet v _ hnd

theorem mem_stops_of_mem {d : FleetState} {q : Nat × Route} {x : Nat}
    (hq : q ∈ d) (hx : x ∈ q.2) : x ∈ stops d := by
  simp only [stops, List.mem_flatMap]
  exact ⟨q, hq, hx⟩

/-- When the flattened stop list is duplicate-free, a stop assigned
somewhere appears in exactly one vehicle's binding. -/
theorem countP_mem_route {d : FleetState} {x : Nat}
    (hnd : (stops d).Nodup) (hx : x ∈ stops d) :
    d.countP (fun p => decide (x ∈ p.2)) = 1 := by
  induction d with
  | nil => simp [stops] at hx
  | cons p rest ih =>
    have hsplit : stops (p :: rest) = p.2 ++ stops rest := by
      simp [stops]
    rw [hsplit] at hnd hx
    rw [List.nodup_append] at hnd
    rw [List.countP_cons]
    rcases List.mem_append.mp hx with hxp | hxr
    · have hzero : rest.countP (fun q => decide (x ∈ q.2)) = 0 := by
        rw [List.countP_eq_zero]
        intro q hq
        simp only [decide_eq_true_eq]
        intro hxq
        exact hnd.2.2 hxp (mem_stops_of_mem hq hxq)
      rw [hzero]
      simp [hxp]
    · have hxnp : x ∉ p.2 := fun hc => hnd.2.2 hc hxr
      rw [ih hnd.2.1 hxr]
      simp [hxnp]

/-! ## Claim theorems -/

/-- **C1.**  For every fleet state in which no stop index appears in more
than one vehicle's route and the new order's stop index appears in no
route, if `assign_new_order_realtime` returns a non-`None` fleet state (a
DispatchTier commit), then in the returned state every stop index of the
input plus the new order's stop index appears in exactly one vehicle's
route (no duplication, no loss): the flattened stop list of the result is
a permutation of the new stop consed onto the input's flattened stop
list, and each such stop lies in exactly one vehicle's binding. -/
theorem assign_new_order_realtime_one_assignment
    {cr : FleetState} {new : Nat} {m : TimeMatrix} {V ms : Nat} {md : ℚ}
    {fs : FleetState}
    (hkeys : (cr.map Prod.fst).Nodup)
    (hnd : (stops cr).Nodup) (hnew : new ∉ stops cr)
    (hres : (assign_new_order_realtime new cr m V ms md).1 = some fs) :
    (stops fs).Perm (new :: stops cr) ∧
    ∀ x ∈ new :: stops cr, fs.countP (fun p => decide (x ∈ p.2)) = 1 := by
  unfold assign_new_order_realtime at hres
  cases hg : greedy_insert cr new m V ms md with
  | none =>
    rw [hg] at hres
    exact Option.noConfusion hres
  | some g =>
    rw [hg] at hres
    dsimp only at hres
    have hgs := greedy_insert_stops hg
    have hgk := greedy_insert_keys hkeys hg
    have hfs : (stops fs : Multiset Nat) = new ::ₘ (stops cr : Multiset Nat) := by
      cases ht : tabu_search g m ms md with
      | none =>
        rw [ht] at hres
        dsimp only at hres
        injection hres with hres
        subst hres
        exact hgs
      | some t =>
        rw [ht] at hres
        dsimp only at hres
        by_cases hacc : calculate_total_cost t m <
            calculate_total_cost g m * (97 / 100)
        · rw [if_pos hacc] at hres
          dsimp only at hres
          injection hres with hres
          subst hres
          rw [tabu_search_stops hgk ht]
          exact hgs
        · rw [if_neg hacc] at hres
          dsimp only at hres
          injection hres with hres
          subst hres
          exact hgs
    have hndnew : (new :: stops cr).Nodup := List.nodup_cons.mpr ⟨hnew, hnd⟩
    have hperm : (stops fs).Perm (new :: stops cr) := by
      apply Multiset.coe_eq_coe.mp
      rw [hfs, ← Multiset.cons_coe]
    refine ⟨hperm, fun x hx => ?_⟩
    exact countP_mem_route (hperm.nodup_iff.mpr hndnew) (hperm.mem_iff.mpr hx)

theorem assign_new_order_realtime_one_assignment_witness :
    (stops [(0, [2, 1])]).Perm (2 :: stops [(0, [1])]) ∧
    ∀ x ∈ 2 :: stops [(0, [1])],
      ([(0, [2, 1])] : FleetState).countP (fun p => decide (x ∈ p.2)) = 1 :=
  @assign_new_order_realtime_one_assignment [(0, [1])] 2 wMatrix 2 2 1000
    [(0, [2, 1])] (by with_unfolding_all decide) (by with_unfolding_all decide) (by with_unfolding_all decide) (by with_unfolding_all decide)

/-- **C2** fails on the code at the exact 97% boundary: in the threshold
scenario the greedy candidate is `[1, 2, 3]` (fleet cost 200), the tabu
refinement returns `[2, 1, 3]` (fleet cost 194 = 0.97 × 200, so the
refined cost *is* ≤ 97% of the greedy cost), the two states differ, and
yet the committed state is the greedy candidate: the source accepts only
on strict `tabu_total_cost < greedy_total_cost * 0.97`. -/
theorem acceptance_threshold_counterexample :
    greedy_insert thresholdFleet 3 thresholdMatrix 1 3 1000 =
      some [(0, [1, 2, 3])] ∧
    tabu_search [(0, [1, 2, 3])] thresholdMatrix 3 1000 =
      some [(0, [2, 1, 3])] ∧
    calculate_total_cost [(0, [2, 1, 3])] thresholdMatrix ≤
      calculate_total_cost [(0, [1, 2, 3])] thresholdMatrix * (97 / 100) ∧
    ([(0, [2, 1, 3])] : FleetState) ≠ [(0, [1, 2, 3])] ∧
    assign_new_order_realtime 3 thresholdFleet thresholdMatrix 1 3 1000 =
      (some [(0, [1, 2, 3])], "greedy") :=
  ⟨by with_unfolding_all decide, by with_unfolding_all decide, by with_unfolding_all decide, by with_unfolding_all decide, by with_unfolding_all decide⟩

/-- **C2** (amended).  When the greedy insertion succeeds and the tabu
refinement returns a solution, DispatchTier commits the tabu-refined
state exactly when the refined state's FleetCost is *strictly less than*
97% of the greedy-only candidate's FleetCost; at or above that threshold
(including exact equality with 0.97 × greedy cost) the committed state is
the greedy-only candidate, unchanged. -/
theorem assign_acceptance_strict_threshold
    {cr : FleetState} {new : Nat} {m : TimeMatrix} {V ms : Nat} {md : ℚ}
    {g t : FleetState}
    (hg : greedy_insert cr new m V ms md = some g)
    (ht : tabu_search g m ms md = some t) :
    assign_new_order_realtime new cr m V ms md =
      if calculate_total_cost t m < calculate_total_cost g m * (97 / 100) then
        (some t, "tabu")
      else
        (some g, "greedy") := by
  unfold assign_new_order_realtime
  rw [hg]
  dsimp only
  rw [ht]

theorem assign_acceptance_strict_threshold_witness :
    assign_new_order_realtime 3 thresholdFleet thresholdMatrix 1 3 1000 =
      if calculate_total_cost [(0, [2, 1, 3])] thresholdMatrix <
          calculate_total_cost [(0, [1, 2, 3])] thresholdMatrix * (97 / 100) then
        (some [(0, [2, 1, 3])], "tabu")
      else
        (some [(0, [1, 2, 3])], "greedy") :=
  @assign_acceptance_strict_threshold thresholdFleet 3 thresholdMatrix 1 3 1000
    [(0, [1, 2, 3])] [(0, [2, 1, 3])] (by with_unfolding_all decide) (by with_unfolding_all decide)

/-- **C3.**  For every fleet state, matrix and solver outcome,
`batch_optimization_vrp` returns either the input fleet state unchanged
(in particular when the solver yields nothing or the assigned-stop pool
is empty) or an installed solution whose FleetCost is ≤ 95% of the input
state's FleetCost; it never installs a costlier-than-95% solution. -/
theorem batch_optimization_vrp_threshold (cr : FleetState) (m : TimeMatrix)
    (V : Nat) (sol : Option (List Route)) :
    batch_optimization_vrp cr m V sol = cr ∨
    calculate_total_cost (batch_optimization_vrp cr m V sol) m ≤
      (95 / 100) * calculate_total_cost cr m := by
  unfold batch_optimization_vrp
  by_cases he : (stops cr).isEmpty
  · rw [if_pos he]
    exact Or.inl rfl
  · rw [if_neg he]
    cases sol with
    | none => exact Or.inl rfl
    | some raw =>
      dsimp only
      by_cases hc : calculate_total_cost
          (((List.range V).map fun i => (i, raw.getD i [])).filter
            fun p => ¬ p.2.isEmpty) m <
          calculate_total_cost cr m * (95 / 100)
      · rw [if_pos hc]
        right
        rw [mul_comm] at hc
        exact le_of_lt hc
      · rw [if_neg hc]
        exact Or.inl rfl

/-- **C4.**  Whenever `greedy_insert` returns a fleet state (not the
infeasible result), the one modified route is feasible: its RouteCost is
≤ `maxRouteDurationMinutes` and its length is ≤ `maxStopsPerRoute`; the
chosen vehicle's previous route was strictly below `maxStopsPerRoute`,
so a vehicle already at or above the cap is never chosen. -/
theorem greedy_insert_feasible
    {cr : FleetState} {new : Nat} {m : TimeMatrix} {V ms : Nat} {md : ℚ}
    {nr : FleetState}
    (h : greedy_insert cr new m V ms md = some nr) :
    ∃ v i, nr = dictSet cr v (pyInsert i new (dictGet cr v)) ∧
      (dictGet cr v).length < ms ∧
      dictGet nr v = pyInsert i new (dictGet cr v) ∧
      (dictGet nr v).length ≤ ms ∧
      calculate_route_cost (dictGet nr v) m ≤ md := by
  obtain ⟨c, v, i, hpick, rfl⟩ := greedy_insert_eq_some_iff.mp h
  obtain ⟨hv, hms, hi, hcost, -⟩ :=
    mem_insertionCandidates.mp (pickBest_mem hpick)
  have hget := dictGet_dictSet cr v (pyInsert i new (dictGet cr v))
  refine ⟨v, i, rfl, hms, hget, ?_, ?_⟩
  · rw [hget, pyInsert_length]
    omega
  · rw [hget]
    exact hcost

theorem greedy_insert_feasible_witness :
    ∃ v i, ([(0, [1])] : FleetState) =
        dictSet ([] : FleetState) v (pyInsert i 1 (dictGet ([] : FleetState) v)) ∧
      (dictGet ([] : FleetState) v).length < 1 ∧
      dictGet [(0, [1])] v = pyInsert i 1 (dictGet ([] : FleetState) v) ∧
      (dictGet [(0, [1])] v).length ≤ 1 ∧
      calculate_route_cost (dictGet [(0, [1])] v) wMatrix ≤ 100 :=
  @greedy_insert_feasible [] 1 wMatrix 1 1 100 [(0, [1])]
    (by with_unfolding_all decide)

/-- **C5.**  `greedy_insert` is the first-minimum selection over exactly
the spec's candidate set: (a) a triple `(cost_increase, v, i)` is scanned
iff `v < num_vehicles`, the current route of `v` is strictly below
`max_stops`, `i` ranges over `0..len(route)`, the inserted route's cost is
within `max_duration`, and the recorded value is `newCost − oldCost`;
(b) the infeasible result (`None`) is returned exactly when no candidate
passes the filters; (c) a returned candidate realises the minimum cost
increase, the applied insertion is that candidate's, and every tying
candidate comes no earlier in vehicle-then-position lexicographic order. -/
theorem greedy_insert_argmin_spec (cr : FleetState) (new : Nat) (m : TimeMatrix)
    (V ms : Nat) (md : ℚ) :
    (∀ c v i, ((c, v, i) ∈ insertionCandidates cr new m V ms md ↔
      v < V ∧ (dictGet cr v).length < ms ∧ i < (dictGet cr v).length + 1 ∧
      calculate_route_cost (pyInsert i new (dictGet cr v)) m ≤ md ∧
      c = calculate_route_cost (pyInsert i new (dictGet cr v)) m -
          calculate_route_cost (dictGet cr v) m)) ∧
    (greedy_insert cr new m V ms md = none ↔
      insertionCandidates cr new m V ms md = []) ∧
    (∀ b, pickBest (insertionCandidates cr new m V ms md) = some b →
      greedy_insert cr new m V ms md =
        some (dictSet cr b.2.1 (pyInsert b.2.2 new (dictGet cr b.2.1))) ∧
      b ∈ insertionCandidates cr new m V ms md ∧
      (∀ x ∈ insertionCandidates cr new m V ms md, b.1 ≤ x.1) ∧
      (∀ x ∈ insertionCandidates cr new m V ms md, x.1 = b.1 →
        b.2.1 < x.2.1 ∨ (b.2.1 = x.2.1 ∧ b.2.2 ≤ x.2.2))) := by
  refine ⟨fun c v i => mem_insertionCandidates, greedy_insert_eq_none_iff,
    fun b hb => ?_⟩
  obtain ⟨b1, bv, bi⟩ := b
  refine ⟨?_, pickBest_mem hb, pickBest_min hb, ?_⟩
  · unfold greedy_insert
    rw [hb]
  · obtain ⟨pre, post, hsplit, hpre, hpost⟩ := pickBest_split hb
    have hpw := insertionCandidates_pairwise cr new m V ms md
    rw [hsplit] at hpw
    intro x hx hxeq
    rw [hsplit] at hx
    rcases List.mem_append.mp hx with hxpre | hxmid
    · exact absurd hxeq (ne_of_gt (hpre x hxpre))
    · rcases List.mem_cons.mp hxmid with rfl | hxpost
      · exact Or.inr ⟨rfl, le_refl _⟩
      · have hlex := ((List.pairwise_append.mp hpw).2.1)
        have := (List.pairwise_cons.mp hlex).1 x hxpost
        rcases this with h1 | ⟨h1, h2⟩
        · exact Or.inl h1
        · exact Or.inr ⟨h1, le_of_lt h2⟩

theorem greedy_insert_argmin_spec_witness :
    greedy_insert [(0, [1])] 2 wMatrix 2 2 1000 =
      some (dictSet [(0, [1])] 0 (pyInsert 0 2 (dictGet [(0, [1])] 0))) ∧
    ((10 : ℚ), 0, 0) ∈ insertionCandidates [(0, [1])] 2 wMatrix 2 2 1000 ∧
    (∀ x ∈ insertionCandidates [(0, [1])] 2 wMatrix 2 2 1000, (10 : ℚ) ≤ x.1) ∧
    (∀ x ∈ insertionCandidates [(0, [1])] 2 wMatrix 2 2 1000, x.1 = (10 : ℚ) →
      (0 : Nat) < x.2.1 ∨ ((0 : Nat) = x.2.1 ∧ (0 : Nat) ≤ x.2.2)) :=
  (greedy_insert_argmin_spec [(0, [1])] 2 wMatrix 2 2 1000).2.2
    ((10 : ℚ), 0, 0) (by with_unfolding_all decide)

/-- **C6.**  For every initial fleet state on which `tabu_search` returns
a solution, the FleetCost of the returned fleet state is ≤ the FleetCost
of the input: the refiner returns the best state seen across all
iterations, never worse than the input. -/
theorem tabu_search_never_regresses
    {initial_solution : FleetState} {m : TimeMatrix} {ms : Nat} {md : ℚ}
    {out : FleetState}
    (h : tabu_search initial_solution m ms md = some out) :
    calculate_total_cost out m ≤ calculate_total_cost initial_solution m :=
  tabu_search_cost_le h

theorem tabu_search_never_regresses_witness :
    calculate_total_cost [(0, [2, 1, 3])] thresholdMatrix ≤
      calculate_total_cost [(0, [1, 2, 3])] thresholdMatrix :=
  @tabu_search_never_regresses [(0, [1, 2, 3])] thresholdMatrix 3 1000
    [(0, [2, 1, 3])] (by with_unfolding_all decide)

/-- **C7.**  For every initial fleet state in which every route's
RouteCost is ≤ `maxRouteDurationMinutes`, every route of the state that
`tabu_search` returns also has RouteCost ≤ `maxRouteDurationMinutes`:
every applied swap is pre-filtered against the duration cap. -/
theorem tabu_search_duration_cap
    {initial_solution : FleetState} {m : TimeMatrix} {ms : Nat} {md : ℚ}
    {out : FleetState}
    (hfeas : ∀ p ∈ initial_solution, calculate_route_cost p.2 m ≤ md)
    (h : tabu_search initial_solution m ms md = some out) :
    ∀ p ∈ out, calculate_route_cost p.2 m ≤ md :=
  tabu_search_duration hfeas h

theorem tabu_search_duration_cap_witness :
    calculate_route_cost ((0, [2, 1, 3]) : Nat × Route).2 thresholdMatrix ≤ 1000 :=
  @tabu_search_duration_cap [(0, [1, 2, 3])] thresholdMatrix 3 1000
    [(0, [2, 1, 3])] (by with_unfolding_all decide) (by with_unfolding_all decide)
    (0, [2, 1, 3]) (by with_unfolding_all decide)

/-- **C8** fails on the code: `calculate_route_cost` performs no
validation of matrix entries — on a matrix containing a negative entry it
returns the plain numeric sum (here the negative cost −2) instead of
signalling any configuration error; no error path exists in the module. -/
theorem negative_entry_numeric_cost_counterexample :
    calculate_route_cost [1] negEntryMatrix 0 = -2 ∧
    calculate_route_cost [1] negEntryMatrix 0 < 0 :=
  ⟨by with_unfolding_all decide, by with_unfolding_all decide⟩

/-- **C8** (amended).  The cost model does not reject negative-cost
matrix entries: `calculate_route_cost` unconditionally returns the
numeric sum of the traversed entries (negative inputs can yield a
negative cost, as the counterexample shows); over a matrix with only
nonnegative entries the returned cost is nonnegative. -/
theorem calculate_route_cost_nonneg (route : Route) (m : TimeMatrix)
    (depot : Nat) (h : ∀ i j, 0 ≤ m i j) :
    0 ≤ calculate_route_cost route m depot := by
  cases route with
  | nil => exact le_refl 0
  | cons s rest =>
    have hhops : ∀ r : Route, 0 ≤ hopsCost r m := by
      intro r
      induction r with
      | nil => exact le_of_eq rfl
      | cons a t ih =>
        cases t with
        | nil => exact le_of_eq rfl
        | cons b t' =>
          have : hopsCost (a :: b :: t') m = m a b + hopsCost (b :: t') m := rfl
          rw [this]
          exact add_nonneg (h a b) ih
    exact add_nonneg (add_nonneg (h depot s) (hhops (s :: rest))) (h _ depot)

theorem calculate_route_cost_nonneg_witness :
    0 ≤ calculate_route_cost [1] wMatrix 0 :=
  calculate_route_cost_nonneg [1] wMatrix 0
    (fun i j => by unfold wMatrix; split <;> norm_num)

/-- **C9** fails on the code: when `batch_optimization_vrp` installs a
solver solution it filters out empty routes, removing those vehicles'
entries from the mapping.  Here the input domain is `{0, 1}`, the solver
solution assigns both stops to vehicle 0 and nothing to vehicle 1, the
solution is installed (cost 3 < 0.95 × 22), and vehicle 1 has no binding
in the result. -/
theorem batch_drops_empty_route_counterexample :
    batchFleet.map Prod.fst = [0, 1] ∧
    batch_optimization_vrp batchFleet batchMatrix 2 (some [[1, 2], []]) =
      [(0, [1, 2])] ∧
    ∀ p ∈ batch_optimization_vrp batchFleet batchMatrix 2 (some [[1, 2], []]),
      p.1 ≠ 1 :=
  ⟨by with_unfolding_all decide, by with_unfolding_all decide,
    by with_unfolding_all decide⟩

/-- **C9** (amended).  `batch_optimization_vrp` either returns the input
fleet state unchanged (vehicle domain preserved) or installs a solver
solution in which every bound vehicle identifier lies in `0..V-1` and
every bound route is non-empty: vehicles whose new route is empty are
dropped from the mapping rather than kept with an empty route. -/
theorem batch_optimization_vrp_domain (cr : FleetState) (m : TimeMatrix)
    (V : Nat) (sol : Option (List Route)) :
    batch_optimization_vrp cr m V sol = cr ∨
    ∀ p ∈ batch_optimization_vrp cr m V sol, p.1 < V ∧ p.2 ≠ [] := by
  unfold batch_optimization_vrp
  by_cases he : (stops cr).isEmpty
  · rw [if_pos he]
    exact Or.inl rfl
  · rw [if_neg he]
    cases sol with
    | none => exact Or.inl rfl
    | some raw =>
      dsimp only
      by_cases hc : calculate_total_cost
          (((List.range V).map fun i => (i, raw.getD i [])).filter
            fun p => ¬ p.2.isEmpty) m <
          calculate_total_cost cr m * (95 / 100)
      · rw [if_pos hc]
        right
        intro p hp
        rw [List.mem_filter] at hp
        obtain ⟨hp1, hp2⟩ := hp
        rw [List.mem_map] at hp1
        obtain ⟨i, hi, heq⟩ := hp1
        constructor
        · rw [← heq]
          exact List.mem_range.mp hi
        · simpa using hp2
      · rw [if_neg hc]
        exact Or.inl rfl

/-! ## Frame lemmas for the object-store embedding -/

theorem extends_refl (st : Store) : Extends st st :=
  ⟨le_refl _, fun _ _ => rfl⟩

theorem extends_trans {s1 s2 s3 : Store} (h1 : Extends s1 s2)
    (h2 : Extends s2 s3) : Extends s1 s3 :=
  ⟨le_trans h1.1 h2.1, fun a ha =>
    (h2.2 a (lt_of_lt_of_le ha h1.1)).trans (h1.2 a ha)⟩

theorem alloc_extends (st : Store) (o : Obj) : Extends st (alloc st o).1 := by
  refine ⟨by simp [alloc], fun a ha => ?_⟩
  simp [alloc, List.getElem?_append_left ha]

theorem write_extends {st₀ st₁ : Store} (h : Extends st₀ st₁) {a : Nat}
    (ha : st₀.length ≤ a) (o : Obj) : Extends st₀ (write st₁ a o) := by
  refine ⟨by simpa [write] using h.1, fun b hb => ?_⟩
  rw [write, List.getElem?_set_ne (by omega)]
  exact h.2 b hb

theorem extends_length_le {st₀ st₁ : Store} (h : Extends st₀ st₁) :
    st₀.length ≤ st₁.length := h.1

theorem readRoute_extends {st₀ st₁ : Store} (h : Extends st₀ st₁) {a : Nat}
    (ha : a < st₀.length) : readRoute st₁ a = readRoute st₀ a := by
  unfold readRoute
  rw [h.2 a ha]

theorem readDict_extends {st₀ st₁ : Store} (h : Extends st₀ st₁) {a : Nat}
    (ha : a < st₀.length) : readDict st₁ a = readDict st₀ a := by
  unfold readDict
  rw [h.2 a ha]

theorem readFleet_extends {st₀ st₁ : Store} (h : Extends st₀ st₁) {d : Nat}
    (hd : d < st₀.length) (hr : ∀ p ∈ readDict st₀ d, p.2 < st₀.length) :
    readFleet st₁ d = readFleet st₀ d := by
  unfold readFleet
  rw [readDict_extends h hd]
  exact List.map_congr_left fun p hp => by rw [readRoute_extends h (hr p hp)]

theorem readDict_alloc_dict (st : Store) (ds : List (Nat × Nat)) :
    readDict (alloc st (Obj.dict ds)).1 (alloc st (Obj.dict ds)).2 = ds := by
  simp [alloc, readDict, List.getElem?_append_right, le_refl]

theorem readDict_write_dict_self {st : Store} {a : Nat} (ha : a < st.length)
    (ds : List (Nat × Nat)) :
    readDict (write st a (Obj.dict ds)) a = ds := by
  simp [write, readDict, List.getElem?_set_self, ha]

theorem alookup_mem {d : List (Nat × Nat)} {k a : Nat}
    (h : alookup d k = some a) : (k, a) ∈ d := by
  induction d with
  | nil => simp [alookup] at h
  | cons p rest ih =>
    by_cases hk : p.1 = k
    · rw [alookup, if_pos hk] at h
      injection h with h
      exact List.mem_cons.mpr (Or.inl (Prod.ext hk h).symm)
    · rw [alookup, if_neg hk] at h
      exact List.mem_cons_of_mem p (ih h)

theorem alookup_aset_self (d : List (Nat × Nat)) (k v : Nat) :
    alookup (aset d k v) k = some v := by
  induction d with
  | nil => simp [aset, alookup]
  | cons p rest ih =>
    by_cases hk : p.1 = k
    · simp [aset, hk, alookup]
    · simp [aset, hk, alookup, ih]

theorem scanPos_extends (routeVal : Route) (oc : ℚ) (new : Nat) (m : TimeMatrix)
    (md : ℚ) (v : Nat) :
    ∀ (l : List Nat) (st : Store) (best : Option (ℚ × Nat × Nat)),
      Extends st (scanPos routeVal oc new m md v st best l).1 := by
  intro l
  induction l with
  | nil => intro st best; exact extends_refl st
  | cons i rest ih =>
    intro st best
    have h2 : Extends st
        (write (alloc st (Obj.route routeVal)).1 (alloc st (Obj.route routeVal)).2
          (Obj.route (pyInsert i new
            (readRoute (alloc st (Obj.route routeVal)).1
              (alloc st (Obj.route routeVal)).2)))) :=
      write_extends (alloc_extends st _) (le_refl _) _
    simp only [scanPos]
    split
    · exact extends_trans h2 (ih _ _)
    · exact extends_trans h2 (ih _ _)

theorem scanVehicles_extends (cur new : Nat) (m : TimeMatrix) (ms : Nat) (md : ℚ) :
    ∀ (l : List Nat) (st : Store) (best : Option (ℚ × Nat × Nat)),
      Extends st (scanVehicles cur new m ms md st best l).1 := by
  intro l
  induction l with
  | nil => intro st best; exact extends_refl st
  | cons v rest ih =>
    intro st best
    simp only [scanVehicles]
    split
    · exact ih _ _
    · exact extends_trans (scanPos_extends _ _ _ _ _ _ _ _ _) (ih _ _)

theorem copyRoutesDict_extends :
    ∀ (entries : List (Nat × Nat)) (st : Store),
      Extends st (copyRoutesDict st entries).1 := by
  intro entries
  induction entries with
  | nil => intro st; exact extends_refl st
  | cons p rest ih =>
    intro st
    exact extends_trans (alloc_extends st _) (ih _)

theorem copyRoutesDict_addrs :
    ∀ (entries : List (Nat × Nat)) (st : Store),
      ∀ p ∈ (copyRoutesDict st entries).2, st.length ≤ p.2 := by
  intro entries
  induction entries with
  | nil => intro st p hp; simp [copyRoutesDict] at hp
  | cons q rest ih =>
    intro st p hp
    simp only [copyRoutesDict] at hp
    rcases List.mem_cons.mp hp with rfl | hp
    · exact le_refl _
    · have := ih (alloc st (Obj.route (readRoute st q.2))).1 p hp
      have hlen : st.length ≤ (alloc st (Obj.route (readRoute st q.2))).1.length := by
        simp [alloc]
      omega

theorem copyDictHeap_extends (st : Store) (src : Nat) :
    Extends st (copyDictHeap st src).1 :=
  extends_trans (copyRoutesDict_extends _ _) (alloc_extends _ _)

theorem copyDictHeap_addr (st : Store) (src : Nat) :
    st.length ≤ (copyDictHeap st src).2 := by
  have := extends_length_le (copyRoutesDict_extends (readDict st src) st)
  simpa [copyDictHeap, alloc] using this

theorem routeNeighborsHeap_extends (v : Nat) (routeVal : Route) (m : TimeMatrix)
    (md : ℚ) (tl : List (Nat × Nat)) :
    ∀ (pairs : List (Nat × Nat)) (st : Store),
      Extends st (routeNeighborsHeap v routeVal m md tl st pairs).1 := by
  intro pairs
  induction pairs with
  | nil => intro st; exact extends_refl st
  | cons ij rest ih =>
    intro st
    obtain ⟨i, j⟩ := ij
    simp only [routeNeighborsHeap]
    split
    · exact ih st
    · have h2 : Extends st
          (write (alloc st (Obj.route routeVal)).1 (alloc st (Obj.route routeVal)).2
            (Obj.route (swapAt (readRoute (alloc st (Obj.route routeVal)).1
              (alloc st (Obj.route routeVal)).2) i j))) :=
        write_extends (alloc_extends st _) (le_refl _) _
      split
      · exact extends_trans h2 (ih _)
      · exact extends_trans h2 (ih _)

theorem neighborhoodHeap_extends (m : TimeMatrix) (md : ℚ) (tl : List (Nat × Nat)) :
    ∀ (entries : List (Nat × Nat)) (st : Store) (curD : Nat),
      Extends st (neighborhoodHeap m md tl st curD entries).1 := by
  intro entries
  induction entries with
  | nil => intro st curD; exact extends_refl st
  | cons p rest ih =>
    intro st curD
    obtain ⟨v, a⟩ := p
    simp only [neighborhoodHeap]
    split
    · exact extends_trans (routeNeighborsHeap_extends _ _ _ _ _ _ _) (ih _ _)
    · exact ih _ _

theorem greedy_insert_heap_extends (st : Store) (cur new : Nat) (m : TimeMatrix)
    (V ms : Nat) (md : ℚ) :
    Extends st (greedy_insert_heap st cur new m V ms md).1 := by
  unfold greedy_insert_heap
  rcases hscan : scanVehicles cur new m ms md st none (List.range V) with ⟨st1, best⟩
  have hs : Extends st st1 := by
    have h := scanVehicles_extends cur new m ms md (List.range V) st none
    rwa [hscan] at h
  cases best with
  | none => exact hs
  | some b =>
    obtain ⟨c, v, i⟩ := b
    dsimp only
    rcases hcp : copyRoutesDict st1 (readDict st1 cur) with ⟨st2, entries⟩
    have hcopy : Extends st1 st2 := by
      have h := copyRoutesDict_extends (readDict st1 cur) st1
      rwa [hcp] at h
    have hentries_addrs : ∀ p ∈ entries, st.length ≤ p.2 := by
      have h := copyRoutesDict_addrs (readDict st1 cur) st1
      rw [hcp] at h
      exact fun p hp => le_trans (extends_length_le hs) (h p hp)
    dsimp only
    have hst3ext : Extends st (alloc st2 (Obj.dict entries)).1 :=
      extends_trans hs (extends_trans hcopy (alloc_extends _ _))
    have hread3 : readDict (alloc st2 (Obj.dict entries)).1
        (alloc st2 (Obj.dict entries)).2 = entries := readDict_alloc_dict _ _
    have hndlen : st.length ≤ (alloc st2 (Obj.dict entries)).2 := by
      have := le_trans (extends_length_le hs) (extends_length_le hcopy)
      simpa [alloc] using this
    by_cases hkey : (alookup (readDict (alloc st2 (Obj.dict entries)).1
        (alloc st2 (Obj.dict entries)).2) v).isSome
    · rw [if_pos hkey]
      obtain ⟨raddr, hra⟩ := Option.isSome_iff_exists.mp hkey
      rw [hra]
      have hmem := alookup_mem hra
      rw [hread3] at hmem
      exact write_extends hst3ext (hentries_addrs _ hmem) _
    · rw [if_neg hkey]
      have halloc2 : Extends (alloc st2 (Obj.dict entries)).1
          (alloc (alloc st2 (Obj.dict entries)).1 (Obj.route [])).1 :=
        alloc_extends _ _
      have hndlt : (alloc st2 (Obj.dict entries)).2 <
          (alloc st2 (Obj.dict entries)).1.length := by
        simp [alloc]
      have hread4 : readDict (alloc (alloc st2 (Obj.dict entries)).1
            (Obj.route [])).1 (alloc st2 (Obj.dict entries)).2 =
          readDict (alloc st2 (Obj.dict entries)).1
            (alloc st2 (Obj.dict entries)).2 :=
        readDict_extends halloc2 hndlt
      rw [hread4, hread3]
      have hwext : Extends st
          (write (alloc (alloc st2 (Obj.dict entries)).1 (Obj.route [])).1
            (alloc st2 (Obj.dict entries)).2
            (Obj.dict (aset entries v
              (alloc (alloc st2 (Obj.dict entries)).1 (Obj.route [])).2))) :=
        write_extends (extends_trans hst3ext halloc2) hndlen _
      have hread5 : readDict
          (write (alloc (alloc st2 (Obj.dict entries)).1 (Obj.route [])).1
            (alloc st2 (Obj.dict entries)).2
            (Obj.dict (aset entries v
              (alloc (alloc st2 (Obj.dict entries)).1 (Obj.route [])).2)))
          (alloc st2 (Obj.dict entries)).2 =
          aset entries v
            (alloc (alloc st2 (Obj.dict entries)).1 (Obj.route [])).2 :=
        readDict_write_dict_self (by simp [alloc]) _
      rw [hread5, alookup_aset_self]
      have healen : st.length ≤
          (alloc (alloc st2 (Obj.dict entries)).1 (Obj.route [])).2 := by
        have := le_trans (extends_length_le hs) (extends_length_le hcopy)
        simp only [alloc]
        simp only [List.length_append, List.length_cons, List.length_nil]
        omega
      exact write_extends hwext healen _

theorem tabuIterHeap_frame (m : TimeMatrix) (md : ℚ) (tn : Nat) :
    ∀ (fuel : Nat) (st₀ st : Store) (curD bestD : Nat) (bc : ℚ)
      (tl : List (Nat × Nat)),
      Extends st₀ st → st₀.length ≤ curD →
      Extends st₀ (tabuIterHeap m md tn fuel st curD bestD bc tl).1 := by
  intro fuel
  induction fuel with
  | zero => intro st₀ st curD bestD bc tl h hcur; exact h
  | succ n ih =>
    intro st₀ st curD bestD bc tl h hcur
    simp only [tabuIterHeap]
    have hnb : Extends st₀
        (neighborhoodHeap m md tl st curD (readDict st curD)).1 :=
      extends_trans h (neighborhoodHeap_extends _ _ _ _ _ _)
    split
    · exact hnb
    · cases hpick : pickBestNeighborHeap
          (neighborhoodHeap m md tl st curD (readDict st curD)).1 curD m
          (neighborhoodHeap m md tl st curD (readDict st curD)).2 with
      | none => exact ih st₀ _ curD bestD bc tl hnb hcur
      | some p =>
        obtain ⟨v, na⟩ := p
        dsimp only
        have hw : Extends st₀ (write
            (neighborhoodHeap m md tl st curD (readDict st curD)).1 curD
            (Obj.dict (aset (readDict
              (neighborhoodHeap m md tl st curD (readDict st curD)).1 curD)
              v na))) :=
          write_extends hnb hcur _
        split
        · exact ih st₀ _ curD _ _ _
            (extends_trans hw (copyDictHeap_extends _ _)) hcur
        · exact ih st₀ _ curD bestD bc _ hw hcur

theorem tabu_search_heap_extends (st : Store) (init : Nat) (m : TimeMatrix)
    (ms : Nat) (md : ℚ) :
    Extends st (tabu_search_heap st init m ms md).1 := by
  unfold tabu_search_heap
  split
  · exact extends_refl st
  · have hb : Extends st (copyDictHeap st init).1 := copyDictHeap_extends _ _
    have hc : Extends st (copyDictHeap (copyDictHeap st init).1 init).1 :=
      extends_trans hb (copyDictHeap_extends _ _)
    have hcur : st.length ≤ (copyDictHeap (copyDictHeap st init).1 init).2 :=
      le_trans (extends_length_le hb) (copyDictHeap_addr _ _)
    exact tabuIterHeap_frame m md 10 50 st _ _ _ _ [] hc hcur

theorem assign_new_order_realtime_heap_extends (new : Nat) (st : Store)
    (cur : Nat) (m : TimeMatrix) (V ms : Nat) (md : ℚ) :
    Extends st (assign_new_order_realtime_heap new st cur m V ms md).1 := by
  unfold assign_new_order_realtime_heap
  dsimp only
  have hg : Extends st (greedy_insert_heap st cur new m V ms md).1 :=
    greedy_insert_heap_extends _ _ _ _ _ _ _
  cases hgr : (greedy_insert_heap st cur new m V ms md).2 with
  | none => exact hg
  | some gAddr =>
    dsimp only
    have ht : Extends st
        (tabu_search_heap (greedy_insert_heap st cur new m V ms md).1 gAddr
          m ms md).1 :=
      extends_trans hg (tabu_search_heap_extends _ _ _ _ _)
    cases htr : (tabu_search_heap (greedy_insert_heap st cur new m V ms md).1
        gAddr m ms md).2 with
    | none => exact ht
    | some tAddr =>
      dsimp only
      split
      · exact ht
      · exact ht

/-- **C10.**  `greedy_insert`, `tabu_search` and
`assign_new_order_realtime` never mutate the fleet state passed to them —
neither the mapping nor any route list within it.  In the object-store
embedding (where every Python list/dict copy allocates and every in-place
`insert`, element assignment or dict assignment writes a store cell):
every address allocated before the call holds the same object after it,
and in particular the caller's fleet dict reads back exactly the same
fleet value — also when `assign_new_order_realtime` rejects the order. -/
theorem layer1_no_mutation
    {st : Store} {cur new : Nat} {m : TimeMatrix} {V ms : Nat} {md : ℚ}
    (hd : cur < st.length)
    (hr : ∀ p ∈ readDict st cur, p.2 < st.length) :
    Extends st (greedy_insert_heap st cur new m V ms md).1 ∧
    Extends st (tabu_search_heap st cur m ms md).1 ∧
    Extends st (assign_new_order_realtime_heap new st cur m V ms md).1 ∧
    readFleet (greedy_insert_heap st cur new m V ms md).1 cur =
      readFleet st cur ∧
    readFleet (tabu_search_heap st cur m ms md).1 cur = readFleet st cur ∧
    readFleet (assign_new_order_realtime_heap new st cur m V ms md).1 cur =
      readFleet st cur := by
  refine ⟨greedy_insert_heap_extends st cur new m V ms md,
    tabu_search_heap_extends st cur m ms md,
    assign_new_order_realtime_heap_extends new st cur m V ms md, ?_, ?_, ?_⟩
  · exact readFleet_extends (greedy_insert_heap_extends st cur new m V ms md) hd hr
  · exact readFleet_extends (tabu_search_heap_extends st cur m ms md) hd hr
  · exact readFleet_extends
      (assign_new_order_realtime_heap_extends new st cur m V ms md) hd hr

theorem layer1_no_mutation_witness :
    Extends wStore (greedy_insert_heap wStore 0 2 wMatrix 2 2 1000).1 ∧
    Extends wStore (tabu_search_heap wStore 0 wMatrix 2 1000).1 ∧
    Extends wStore (assign_new_order_realtime_heap 2 wStore 0 wMatrix 2 2 1000).1 ∧
    readFleet (greedy_insert_heap wStore 0 2 wMatrix 2 2 1000).1 0 =
      readFleet wStore 0 ∧
    readFleet (tabu_search_heap wStore 0 wMatrix 2 1000).1 0 = readFleet wStore 0 ∧
    readFleet (assign_new_order_realtime_heap 2 wStore 0 wMatrix 2 2 1000).1 0 =
      readFleet wStore 0 :=
  @layer1_no_mutation wStore 0 2 wMatrix 2 2 1000
    (by with_unfolding_all decide) (by with_unfolding_all decide)

end HybridSolver
